import Mathlib

set_option maxRecDepth 100000

/-!
Verification development for the Obsidian → Quartz synchronisation engine
(`sync.mjs`).  The JavaScript source is shallowly embedded: strings are
`List Char`, JavaScript regular-expression scans become explicit recursive
scanners, the file system becomes explicit oracles, and the reconciliation
`run` becomes a pure function from a snapshot and a manifest to a list of
destination effects plus the new manifest.
-/

/-- ECMAScript `\s` character class (WhiteSpace ∪ LineTerminator), used by the
regexes in `sync.mjs` and by `String.prototype.trim`. -/
def isJsSpace (c : Char) : Bool :=
  let n := c.toNat
  n == 9 || n == 10 || n == 11 || n == 12 || n == 13 || n == 32 || n == 160 ||
  n == 0x1680 || (decide (0x2000 ≤ n) && decide (n ≤ 0x200A)) || n == 0x2028 ||
  n == 0x2029 || n == 0x202F || n == 0x205F || n == 0x3000 || n == 0xFEFF

/-- `startsWithCh pat l` is true when `pat` is an initial segment of `l`
(JavaScript `String.prototype.startsWith`, character-exact). -/
def startsWithCh : List Char → List Char → Bool
  | [], _ => true
  | _ :: _, [] => false
  | p :: ps, x :: xs => p == x && startsWithCh ps xs

/-- JavaScript `String.prototype.trim`: strip `\s` characters at both ends. -/
def jsTrim (l : List Char) : List Char :=
  ((l.dropWhile isJsSpace).reverse.dropWhile isJsSpace).reverse

/-- `basename.replace(/\s/g, "-")` — every whitespace character becomes a
hyphen. -/
def jsReplaceWs (s : List Char) : List Char :=
  s.map fun c => if isJsSpace c then '-' else c

/-- `.replace(/&/g, "-and-")`. -/
def jsReplaceAmp (s : List Char) : List Char :=
  s.flatMap fun c => if c == '&' then ['-', 'a', 'n', 'd', '-'] else [c]

/-- `.replace(/%/g, "-percent")`. -/
def jsReplacePercent (s : List Char) : List Char :=
  s.flatMap fun c => if c == '%' then ['-', 'p', 'e', 'r', 'c', 'e', 'n', 't'] else [c]

/-- `.replace(/\?/g, "")`. -/
def jsDropQuestion (s : List Char) : List Char :=
  s.filter fun c => !(c == '?')

/-- `.replace(/#/g, "")`. -/
def jsDropHash (s : List Char) : List Char :=
  s.filter fun c => !(c == '#')

/-- The transformation chain `sync.mjs` applies to the extensionless part of a
filename (lines 81–86). -/
def slugChain (s : List Char) : List Char :=
  jsDropHash (jsDropQuestion (jsReplacePercent (jsReplaceAmp (jsReplaceWs s))))

/-- JavaScript `String.prototype.slice` index resolution: negative indices
count from the end, results are clamped to `[0, len]`. -/
def jsSliceIdx (len : Nat) (i : Int) : Nat :=
  if i < 0 then (max (i + len) 0).toNat else min i.toNat len

/-- JavaScript `String.prototype.slice(a, b)`. -/
def jsSlice (s : List Char) (a b : Int) : List Char :=
  (s.take (jsSliceIdx s.length b)).drop (jsSliceIdx s.length a)

/-- Scanner state of Node's `path.posix.extname` (sentinel `-1` kept as in the
JavaScript source). -/
structure ExtSt where
  startDot : Int
  startPart : Nat
  endIdx : Int
  matchedSlash : Bool
  preDot : Int
  deriving DecidableEq, Repr

/-- One step (for the character at index `i`) of Node's `extname` right-to-left
scan; the returned Bool requests loop exit (`break`). -/
def extStep (c : Char) (i : Nat) (st : ExtSt) : ExtSt × Bool :=
  if c == '/' then
    if st.matchedSlash then (st, false)
    else ({ st with startPart := i + 1 }, true)
  else
    let st1 :=
      if st.endIdx == -1 then { st with matchedSlash := false, endIdx := (i : Int) + 1 }
      else st
    let st2 :=
      if c == '.' then
        if st1.startDot == -1 then { st1 with startDot := (i : Int) }
        else if st1.preDot != 1 then { st1 with preDot := 1 }
        else st1
      else if st1.startDot != -1 then { st1 with preDot := -1 }
      else st1
    (st2, false)

/-- Run the `extname` scan from index `i - 1` down to `0`. -/
def extLoop (s : List Char) : Nat → ExtSt → ExtSt
  | 0, st => st
  | i + 1, st =>
    let p := extStep (s.getD i ' ') i st
    if p.2 then p.1 else extLoop s i p.1

/-- Final step of `extname`: read the extension slice out of the scanner
state (the four-way guard returning the empty extension is Node's). -/
def extnameRes (s : List Char) (st : ExtSt) : List Char :=
  if st.startDot == -1 || st.endIdx == -1 || st.preDot == 0 ||
     (st.preDot == 1 && st.startDot == st.endIdx - 1 && st.startDot == (st.startPart : Int) + 1)
  then []
  else (s.take st.endIdx.toNat).drop st.startDot.toNat

/-- Node `path.posix.extname`, as called by `slugifyBasename` (line 79). -/
def extname (s : List Char) : List Char :=
  extnameRes s (extLoop s s.length ⟨-1, 0, -1, true, 0⟩)

/-- `slugifyBasename` (sync.mjs lines 78–88): split off the extension with
`extname`, transform the rest, reappend the extension.  The base is computed by
`basename.slice(0, -ext.length)`, faithfully including the `-0` quirk. -/
def slugifyBasename (basename : List Char) : List Char :=
  let ext := extname basename
  let base := jsSlice basename 0 (-(ext.length : Int))
  slugChain base ++ ext

/-- Modelled from the spec's words (§4.2): the transform rules, "applied to the
name without its extension, in order: all whitespace → hyphen; `&` → the
literal sequence \"-and-\"; `%` → \"-percent\"; `?` and `#` removed." -/
def specTransform (s : List Char) : List Char :=
  jsDropHash (jsDropQuestion (jsReplacePercent (jsReplaceAmp (jsReplaceWs s))))

/-- Modelled from claim C4's words: remove the extension, transform, reappend —
where for a filename with no extension "the whole name is the part to be
transformed". -/
def slugifySpecC4 (name : List Char) : List Char :=
  let ext := extname name
  let base := if ext.length == 0 then name else name.take (name.length - ext.length)
  specTransform base ++ ext

/-- A character that none of the five transform rules touches. -/
def slugInert (c : Char) : Bool :=
  !(isJsSpace c) && !(c == '&') && !(c == '%') && !(c == '?') && !(c == '#')

/-- Length of the maximal run of `\s` characters at the head of a string
(the characters the regex `\s*` can consume). -/
def wsPrefLen : List Char → Nat
  | [] => 0
  | c :: cs => if isJsSpace c then wsPrefLen cs + 1 else 0

/-- The closing delimiter of `FRONTMATTER_REGEX`: a line feed immediately
followed by three hyphens (`\n---`). -/
def nlMarker : List Char := ['\n', '-', '-', '-']

/-- Lazy search of `([\s\S]*?)\n---`: return the text before the earliest
occurrence of `\n---`, or `none` when there is no occurrence. -/
def findClose : List Char → Option (List Char)
  | [] => none
  | x :: xs =>
    if startsWithCh nlMarker (x :: xs) then some []
    else (findClose xs).map (x :: ·)

/-- One backtracking candidate for `^---\s*\n`: the `\s*` consumes exactly `l`
whitespace characters and the mandatory `\n` sits at index `l` of the text
after the three opening hyphens; on success the lazy group search starts right
after that line feed. -/
def fmCandidate (rest : List Char) (l : Nat) : Option (List Char) :=
  if (rest.take l).all isJsSpace && decide (rest[l]? = some '\n') then
    findClose (rest.drop (l + 1))
  else none

/-- Greedy backtracking over the length of `\s*`: try the longest candidate
first, then shorter ones, taking the first whose remainder matches. -/
def fmTry (rest : List Char) : Nat → Option (List Char)
  | 0 => fmCandidate rest 0
  | l + 1 =>
    match fmCandidate rest (l + 1) with
    | some g => some g
    | none => fmTry rest l

/-- `content.match(FRONTMATTER_REGEX)`'s capture group: the regex
`^---\s*\n([\s\S]*?)\n---` anchored at the start of the document. -/
def fmGroup (content : List Char) : Option (List Char) :=
  match content with
  | '-' :: '-' :: '-' :: rest => fmTry rest (wsPrefLen rest)
  | _ => none

/-- `PUBLISHABLE_REGEX` = `(?:可发布|已发布)\s*:\s*true` matched at the head of
the text (both keys are three characters long). -/
def pubKeyAt (l : List Char) : Bool :=
  if startsWithCh ['可', '发', '布'] l || startsWithCh ['已', '发', '布'] l then
    match (l.drop 3).dropWhile isJsSpace with
    | ':' :: r3 => startsWithCh ['t', 'r', 'u', 'e'] (r3.dropWhile isJsSpace)
    | _ => false
  else false

/-- `PUBLISHABLE_REGEX.test`: unanchored search for the key pattern. -/
def pubSearch : List Char → Bool
  | [] => false
  | c :: tl => pubKeyAt (c :: tl) || pubSearch tl

/-- `hasPublishableFrontmatter` (sync.mjs lines 54–58): match the frontmatter
regex against the document; if it matches, test the publishable regex against
the capture group. -/
def hasPublishableFrontmatter (content : List Char) : Bool :=
  match fmGroup content with
  | some g => pubSearch g
  | none => false

/-- Split a text into lines at `\n` (for the claim-side reading of C6). -/
def splitLines (l : List Char) : List (List Char) :=
  match l with
  | [] => [[]]
  | '\n' :: rest => [] :: splitLines rest
  | c :: rest =>
    match splitLines rest with
    | [] => [[c]]
    | line :: more => (c :: line) :: more

/-- Modelled from claim C6's words: a single line that sets one of the two
accepted keys to true, with whitespace tolerated around the colon and key. -/
def lineSetsKeyTrue (line : List Char) : Bool :=
  let t := line.dropWhile isJsSpace
  if startsWithCh ['可', '发', '布'] t || startsWithCh ['已', '发', '布'] t then
    match (t.drop 3).dropWhile isJsSpace with
    | ':' :: r =>
      let r2 := r.dropWhile isJsSpace
      startsWithCh ['t', 'r', 'u', 'e'] r2 && (r2.drop 4).all isJsSpace
    | _ => false
  else false

/-- Modelled from claim C6's words: the text begins with a header block opened
by a `---` marker line at the very start and closed by a matching `---` line,
and the block between them contains a line setting one of the two accepted
keys to true. -/
def specPublishableStrict (content : List Char) : Bool :=
  match splitLines content with
  | [] => false
  | first :: rest =>
    first == ['-', '-', '-'] && rest.any (· == ['-', '-', '-']) &&
    (rest.takeWhile (fun ln => !(ln == ['-', '-', '-']))).any lineSetsKeyTrue

/-- One attempt of `WIKI_IMAGE_REGEX` = `!\[\[([^\]]+)\]\]` at the current
position: on success return the capture and the rest of the input after the
matched text. -/
def wikiMatchAt (l : List Char) : Option (List Char × List Char) :=
  match l with
  | '!' :: '[' :: '[' :: rest =>
    let inner := rest.takeWhile fun c => !(c == ']')
    match rest.drop inner.length with
    | ']' :: ']' :: rest2 => if inner.isEmpty then none else some (inner, rest2)
    | _ => none
  | _ => none

/-- The `exec` loop of a global regex: attempt a match at each position,
resuming after the end of every match; the fuel (initially the text length)
bounds the number of steps. -/
def scanMatches (matchAt : List Char → Option (List Char × List Char)) :
    Nat → List Char → List (List Char)
  | 0, _ => []
  | _, [] => []
  | fuel + 1, c :: tl =>
    match matchAt (c :: tl) with
    | some (r, rest) => r :: scanMatches matchAt fuel rest
    | none => scanMatches matchAt fuel tl

/-- All captures of `WIKI_IMAGE_REGEX` over the document, in order. -/
def wikiRefs (content : List Char) : List (List Char) :=
  scanMatches wikiMatchAt content.length content

/-- The four characters tested by `href.startsWith("http")`. -/
def httpPrefix : List Char := ['h', 't', 't', 'p']

/-- One attempt of `MD_IMAGE_REGEX` = `!\[[^\]]*\]\((?!https?:\/\/)([^)]+)\)`
at the current position, including the negative lookahead. -/
def mdMatchAt (l : List Char) : Option (List Char × List Char) :=
  match l with
  | '!' :: '[' :: rest =>
    let alt := rest.takeWhile fun c => !(c == ']')
    match rest.drop alt.length with
    | ']' :: '(' :: rest2 =>
      if startsWithCh ['h', 't', 't', 'p', ':', '/', '/'] rest2 ||
         startsWithCh ['h', 't', 't', 'p', 's', ':', '/', '/'] rest2 then none
      else
        let href := rest2.takeWhile fun c => !(c == ')')
        if href.isEmpty then none
        else
          match rest2.drop href.length with
          | ')' :: rest3 => some (href, rest3)
          | _ => none
    | _ => none
  | _ => none

/-- All captures of `MD_IMAGE_REGEX` over the document, in order. -/
def mdRefs (content : List Char) : List (List Char) :=
  scanMatches mdMatchAt content.length content

/-- JavaScript `Set.prototype.add` on a list kept in insertion order. -/
def setAdd {α : Type} [DecidableEq α] (acc : List α) (r : α) : List α :=
  if r ∈ acc then acc else acc ++ [r]

/-- `extractAssetRefs` (sync.mjs lines 64–74): collect trimmed wiki-embed
targets, then trimmed markdown-image targets that do not start with "http",
into an insertion-ordered set. -/
def extractAssetRefs (content : List Char) : List (List Char) :=
  let wiki := (wikiRefs content).map jsTrim
  let md := ((mdRefs content).map jsTrim).filter fun h => !(startsWithCh httpPrefix h)
  (wiki ++ md).foldl setAdd []

/-- State of Node `path.posix.dirname`'s right-to-left scan. -/
structure DirSt where
  endIdx : Int
  matchedSlash : Bool
  deriving DecidableEq, Repr

/-- The `dirname` scan: walk indexes `len-1` down to `1`, skipping trailing
slashes, stopping at the first slash after a non-slash character. -/
def dirLoop (s : List Char) : Nat → DirSt → DirSt
  | 0, st => st
  | 1, st => st
  | i + 1, st =>
    if s.getD i ' ' == '/' then
      if st.matchedSlash then dirLoop s i st
      else { st with endIdx := (i : Int) }
    else dirLoop s i { st with matchedSlash := false }

/-- Node `path.posix.dirname`, as called on destination-relative document
paths (sync.mjs lines 244, 275). -/
def nodeDirname (p : String) : String :=
  let s := p.data
  if s.length == 0 then "."
  else
    let hasRoot := decide (s[0]? = some '/')
    let st := dirLoop s s.length ⟨-1, true⟩
    if st.endIdx == -1 then (if hasRoot then "/" else ".")
    else if hasRoot && st.endIdx == 1 then "//"
    else ⟨s.take st.endIdx.toNat⟩

/-- One resolved asset of a publishable document (sync.mjs line 163). -/
structure AssetRec where
  ref : String
  basename : String
  slugifiedBasename : String
  sourcePath : String
  deriving DecidableEq, Repr

/-- One Snapshot document — a value of the `publishable` map (line 166). -/
structure DocData where
  mtime : Int
  content : String
  assets : List AssetRec
  deriving DecidableEq, Repr

/-- One manifest entry: the timestamp at last sync and the destination-relative
asset paths materialised for the document (line 288). -/
structure ManEntry where
  mtime : Int
  assets : List String
  deriving DecidableEq, Repr

/-- File-system side effects of a run.  Paths are relative to the destination
content root (`QUARTZ_CONTENT_DIR`); `copyFileTo` keeps the absolute source
path as its first component.  The manifest file lives outside the destination
root and is modelled as the returned value instead of an effect. -/
inductive Effect where
  | unlinkFile : String → Effect
  | readDirNames : String → Effect
  | rmdirDir : String → Effect
  | mkdirDir : String → Effect
  | copyFileTo : String → String → Effect
  | writeFileDest : String → Effect
  deriving DecidableEq, Repr

/-- `image/<slugifiedBasename>` — the destination-relative path of an asset
(lines 223, 265, 282). -/
def destAssetPath (a : AssetRec) : String :=
  "image/" ++ a.slugifiedBasename

/-- The destination asset paths still referenced by some Snapshot document
(`assetsStillReferenced`, lines 221–224). -/
def assetsStillReferenced (pub : List (String × DocData)) : List String :=
  pub.flatMap fun p => p.2.assets.map destAssetPath

/-- `entries[rel].assets || []`. -/
def entryAssets (entries : List (String × ManEntry)) (rel : String) : List String :=
  match entries.lookup rel with
  | some e => e.assets
  | none => []

/-- `Object.keys(entries).filter((rel) => !publishable.has(rel))` (line 220). -/
def toDeleteMd (pub : List (String × DocData)) (entries : List (String × ManEntry)) :
    List String :=
  (entries.map Prod.fst).filter fun rel => !((pub.map Prod.fst).contains rel)

/-- Delete-phase effects for one obsolete document: unlink the destination
document, then unlink each listed asset that is no longer referenced
(lines 225–242). -/
def deleteDocEffects (referenced : List String) (entries : List (String × ManEntry))
    (rel : String) : List Effect :=
  Effect.unlinkFile rel ::
    (entryAssets entries rel).filterMap fun a =>
      if referenced.contains a then none else some (Effect.unlinkFile a)

/-- `new Set(toDeleteMd.map((r) => path.dirname(r)))` (line 244). -/
def dirsToCheck (toDel : List String) : List String :=
  (toDel.map nodeDirname).foldl setAdd []

/-- Cleanup effects for one directory: skip "" and ".", otherwise read the
directory and remove it when empty (lines 245–254).  `dirEmpty` abstracts the
observed directory state; `false` also covers a failed `readdir`, whose error
the code ignores. -/
def dirCleanupEffects (dirEmpty : String → Bool) (d : String) : List Effect :=
  if d == "" || d == "." then []
  else Effect.readDirNames d :: (if dirEmpty d then [Effect.rmdirDir d] else [])

/-- Phase 1 of `run`: all delete-phase effects in program order
(lines 219–254). -/
def deletePhase (dirEmpty : String → Bool) (pub : List (String × DocData))
    (entries : List (String × ManEntry)) : List Effect :=
  (toDeleteMd pub entries).flatMap (deleteDocEffects (assetsStillReferenced pub) entries) ++
    (dirsToCheck (toDeleteMd pub entries)).flatMap (dirCleanupEffects dirEmpty)

/-- The `assetsChanged` test of lines 264–268: JavaScript `Set` sizes become
dedup lengths, `Set.has` becomes list membership. -/
def assetsChangedB (prevAssets currAssets : List String) : Bool :=
  !(prevAssets.dedup.length == currAssets.dedup.length) ||
    currAssets.any fun a => !(prevAssets.contains a)

/-- The fresh manifest entry recorded for a new or updated document
(line 288). -/
def freshEntry (d : DocData) : ManEntry :=
  ⟨d.mtime, d.assets.map destAssetPath⟩

/-- Effects of materialising one document: ensure its directory, copy every
asset to `image/<slug>`, write the rewritten document (lines 274–286). -/
def docWriteEffects (rel : String) (d : DocData) : List Effect :=
  Effect.mkdirDir (nodeDirname rel) ::
    (d.assets.map fun a => Effect.copyFileTo a.sourcePath (destAssetPath a)) ++
    [Effect.writeFileDest rel]

/-- Phase 2 decision for one Snapshot document (lines 260–289): the fast path
applies when the document is not new, not updated (`data.mtime > prev.mtime`
fails), and its asset set is unchanged; then the previous entry is carried
forward with no effects. -/
def phase2Step (entries : List (String × ManEntry)) (rel : String) (d : DocData) :
    List Effect × ManEntry :=
  match entries.lookup rel with
  | none => (docWriteEffects rel d, freshEntry d)
  | some prev =>
    if decide (prev.mtime < d.mtime) ||
        assetsChangedB prev.assets (d.assets.map destAssetPath) then
      (docWriteEffects rel d, freshEntry d)
    else ([], prev)

/-- Phase 2 effects over the whole Snapshot, in Map iteration order. -/
def phase2Effects (entries : List (String × ManEntry)) (pub : List (String × DocData)) :
    List Effect :=
  pub.flatMap fun p => (phase2Step entries p.1 p.2).1

/-- The complete entry set (`newEntries`) persisted by `writeManifest`. -/
def newManifest (entries : List (String × ManEntry)) (pub : List (String × DocData)) :
    List (String × ManEntry) :=
  pub.map fun p => (p.1, (phase2Step entries p.1 p.2).2)

/-- The reconciliation engine `run` (sync.mjs lines 209–292) as a pure
function: given the Snapshot (`publishable`), the previously loaded manifest
entries, and the observed emptiness of destination directories, produce the
destination effects in program order together with the manifest that
`writeManifest` persists. -/
def runModel (dirEmpty : String → Bool) (pub : List (String × DocData))
    (entries : List (String × ManEntry)) :
    List Effect × List (String × ManEntry) :=
  (deletePhase dirEmpty pub entries ++
     Effect.mkdirDir "image" :: phase2Effects entries pub,
   newManifest entries pub)

/-- The destination file (if any) an effect writes, copies onto, or deletes;
directory operations return `none` (no effect reads a destination file). -/
def mutTarget : Effect → Option String
  | .unlinkFile p => some p
  | .copyFileTo _ dst => some dst
  | .writeFileDest p => some p
  | _ => none

/-- Whether an effect mutates a destination file. -/
def isDestFileMutation (e : Effect) : Bool :=
  (mutTarget e).isSome

/-- All destination paths recorded in a manifest: the document keys and every
entry's asset list. -/
def manifestPaths (m : List (String × ManEntry)) : List String :=
  m.map Prod.fst ++ m.flatMap fun e => e.2.assets

/-- Split a path into components at `/`. -/
def splitOnSlash : List Char → List (List Char)
  | [] => [[]]
  | '/' :: rest => [] :: splitOnSlash rest
  | c :: rest =>
    match splitOnSlash rest with
    | [] => [[c]]
    | seg :: more => (c :: seg) :: more

/-- Join path components with `/`. -/
def joinSlash : List (List Char) → List Char
  | [] => []
  | [x] => x
  | x :: xs => x ++ '/' :: joinSlash xs

/-- Stack resolution of `.` and `..` components, as in Node's
`normalizeString` (empty components are dropped; `..` pops, or is kept at the
head of a relative path, or vanishes at the root of an absolute one). -/
def normComps (isAbs : Bool) : List (List Char) → List (List Char) → List (List Char)
  | [], acc => acc.reverse
  | c :: rest, acc =>
    if c == ([] : List Char) || c == ['.'] then normComps isAbs rest acc
    else if c == ['.', '.'] then
      match acc with
      | [] => if isAbs then normComps isAbs rest [] else normComps isAbs rest [['.', '.']]
      | top :: t =>
        if top == ['.', '.'] then normComps isAbs rest (['.', '.'] :: top :: t)
        else normComps isAbs rest t
    else normComps isAbs rest (c :: acc)

/-- Node `path.posix.normalize`. -/
def nodeNormalize (p : String) : String :=
  if p == "" then "."
  else
    let isAbs := startsWithCh ['/'] p.data
    let trailing := startsWithCh ['/'] p.data.reverse && decide (1 < p.data.length)
    let core := joinSlash (normComps isAbs (splitOnSlash p.data) [])
    if core.isEmpty then
      if isAbs then "/" else if trailing then "./" else "."
    else
      let core2 := if trailing then core ++ ['/'] else core
      if isAbs then ⟨'/' :: core2⟩ else ⟨core2⟩

/-- Node `path.posix.join` on two segments, as `findAssetFile` and
`resolveAssetPath` use it: drop empty arguments, join with `/`, normalize. -/
def nodeJoin (a b : String) : String :=
  match [a, b].filter (fun s => !(s == "")) with
  | [] => "."
  | parts => nodeNormalize ⟨joinSlash (parts.map String.data)⟩

/-- State of Node `path.posix.basename`'s right-to-left scan. -/
structure BaseSt where
  start : Nat
  endIdx : Int
  matchedSlash : Bool
  deriving DecidableEq, Repr

/-- The `basename` scan: skip trailing slashes, record the end of the last
component, stop at the slash before it. -/
def baseLoop (s : List Char) : Nat → BaseSt → BaseSt
  | 0, st => st
  | i + 1, st =>
    if s.getD i ' ' == '/' then
      if st.matchedSlash then baseLoop s i st
      else { st with start := i + 1 }
    else
      if st.endIdx == -1 then
        baseLoop s i { st with matchedSlash := false, endIdx := (i : Int) + 1 }
      else baseLoop s i st

/-- Node `path.posix.basename` (no extension argument), as called on raw
references (lines 99, 161). -/
def nodeBasename (p : String) : String :=
  let s := p.data
  let st := baseLoop s s.length ⟨0, -1, true⟩
  if st.endIdx == -1 then ""
  else ⟨(s.take st.endIdx.toNat).drop st.start⟩

/-- JavaScript `toLowerCase`, modelled as per-character ASCII lowercasing. -/
def lowerStr (s : String) : String :=
  ⟨s.data.map Char.toLower⟩

/-- `slugifyBasename` lifted to `String`. -/
def slugifyStr (s : String) : String :=
  ⟨slugifyBasename s.data⟩

/-- Source-side file-system oracle for asset resolution: `access` is
`fs.access` reachability, `readdir` lists a directory (`none` = error). -/
structure SrcFs where
  access : String → Bool
  readdir : String → Option (List String)

/-- `findAssetFile` (sync.mjs lines 98–130): try the three candidate paths in
order — exact basename in the shared image directory, the literal relative
path against the document's directory, the slugified basename in the image
directory — then fall back to scanning the image directory for a file whose
slugified name matches case-insensitively. -/
def findAssetFile (fs : SrcFs) (obsidianDir mdDir ref : String) : Option String :=
  let basename := nodeBasename ref
  let slugified := slugifyStr basename
  let imageDir := nodeJoin obsidianDir "image"
  let base := nodeJoin obsidianDir mdDir
  let candidates := [nodeJoin imageDir basename, nodeJoin base ref, nodeJoin imageDir slugified]
  match candidates.find? (fun p => fs.access p) with
  | some p => some p
  | none =>
    match fs.readdir imageDir with
    | some files =>
      (files.find? fun f => lowerStr (slugifyStr f) == lowerStr slugified).map
        fun f => nodeJoin imageDir f
    | none => none

/-- One candidate file produced by `listMdFiles`: root-relative path (slashes
normalized), its text and its mtime. -/
structure SrcFile where
  rel : String
  content : String
  mtimeMs : Int
  deriving DecidableEq, Repr

/-- Resolution of the extracted references of one document (lines 157–165):
a reference that resolves to no file is dropped without error. -/
def resolveRefs (fs : SrcFs) (obsidianDir mdDir : String) (refs : List String) :
    List AssetRec :=
  refs.filterMap fun ref =>
    match findAssetFile fs obsidianDir mdDir ref with
    | some assetPath =>
      some ⟨ref, nodeBasename ref, slugifyStr (nodeBasename ref), assetPath⟩
    | none => none

/-- `extractAssetRefs` lifted to `String`. -/
def extractAssetRefsStr (content : String) : List String :=
  (extractAssetRefs content.data).map fun l => ⟨l⟩

/-- `getPublishableSet` (lines 148–173) over an abstract listing of the
candidate markdown files: keep the publishable documents, resolving their
asset references; the document is added whether or not its references
resolve. -/
def getPublishableSet (fs : SrcFs) (obsidianDir : String) (files : List SrcFile) :
    List (String × DocData) :=
  files.filterMap fun f =>
    if hasPublishableFrontmatter f.content.data then
      some (f.rel, ⟨f.mtimeMs, f.content,
        resolveRefs fs obsidianDir (nodeDirname f.rel) (extractAssetRefsStr f.content)⟩)
    else none

/-- An oracle on which nothing resolves (every access fails, readdir errors). -/
def fsNone : SrcFs where
  access := fun _ => false
  readdir := fun _ => none

/-- A sample source listing used by witnesses. -/
def srcFilesSample : List SrcFile :=
  [⟨"a.md", "---\n可发布: true\n---\n![[x.png]]", 5⟩]

/-- File-system oracle for the delete phase with failure injection: `none`
means success, `some code` means the operation throws an error carrying that
code (e.g. "ENOENT", "EACCES"). -/
structure DelFs where
  unlinkRes : String → Option String
  readdirRes : String → Except String (List String)
  rmdirRes : String → Option String

/-- `try { await fs.unlink(p) } catch (e) { if (e.code !== "ENOENT") throw e }`
(sync.mjs lines 227–231 and 235–239). -/
def tryUnlink (o : DelFs) (p : String) : Except String Unit :=
  match o.unlinkRes p with
  | none => Except.ok ()
  | some code => if code == "ENOENT" then Except.ok () else Except.error code

/-- Asset deletions for one obsolete manifest entry (lines 232–241). -/
def delAssetsE (o : DelFs) (refd : List String) : List String → Except String Unit
  | [] => Except.ok ()
  | a :: rest =>
    if refd.contains a then delAssetsE o refd rest
    else
      match tryUnlink o a with
      | Except.ok _ => delAssetsE o refd rest
      | Except.error c => Except.error c

/-- Document and asset deletions over `toDeleteMd` (lines 225–242). -/
def delDocsE (o : DelFs) (entries : List (String × ManEntry)) (refd : List String) :
    List String → Except String Unit
  | [] => Except.ok ()
  | rel :: rest =>
    match tryUnlink o rel with
    | Except.error c => Except.error c
    | Except.ok _ =>
      match delAssetsE o refd (entryAssets entries rel) with
      | Except.error c => Except.error c
      | Except.ok _ => delDocsE o entries refd rest

/-- Body of the per-directory cleanup `try` block: list the directory, remove
it when empty; a failure of `readdir` or `rmdir` raises (lines 248–250). -/
def cleanupDirE (o : DelFs) (d : String) : Except String Unit :=
  match o.readdirRes d with
  | Except.error c => Except.error c
  | Except.ok names =>
    if names.length == 0 then
      match o.rmdirRes d with
      | none => Except.ok ()
      | some c => Except.error c
    else Except.ok ()

/-- One iteration of the cleanup loop, including the `!d || d === "."` skip
and the `catch { /* ignore */ }` that swallows every error (lines 245–254). -/
def cleanupDirCaught (o : DelFs) (d : String) : Except String Unit :=
  if d == "" || d == "." then Except.ok ()
  else
    match cleanupDirE o d with
    | Except.ok _ => Except.ok ()
    | Except.error _ => Except.ok ()

/-- The directory-cleanup loop over `dirsToCheck`. -/
def cleanupListE (o : DelFs) : List String → Except String Unit
  | [] => Except.ok ()
  | d :: rest =>
    match cleanupDirCaught o d with
    | Except.ok _ => cleanupListE o rest
    | Except.error c => Except.error c

/-- The delete phase with failure injection (lines 219–254): document and
asset unlinks propagate non-ENOENT errors, then the directory cleanup runs. -/
def deletePhaseE (o : DelFs) (pub : List (String × DocData))
    (entries : List (String × ManEntry)) : Except String Unit :=
  match delDocsE o entries (assetsStillReferenced pub) (toDeleteMd pub entries) with
  | Except.error c => Except.error c
  | Except.ok _ => cleanupListE o (dirsToCheck (toDeleteMd pub entries))

/-- Oracle for the C7 counterexample: unlinks succeed, `readdir "a"` sees an
empty directory, and `rmdir "a"` fails with EACCES. -/
def delFsEacces : DelFs where
  unlinkRes := fun _ => none
  readdirRes := fun _ => Except.ok []
  rmdirRes := fun d => if d == "a" then some "EACCES" else none

/-- All paths the delete phase attempts to `unlink`, in program order: each
obsolete document, followed by its listed assets that are no longer
referenced (the paths whose unlink errors the code does not catch away). -/
def deleteUnlinkTargets (pub : List (String × DocData))
    (entries : List (String × ManEntry)) : List String :=
  (toDeleteMd pub entries).flatMap fun rel =>
    rel :: (entryAssets entries rel).filter fun a =>
      !((assetsStillReferenced pub).contains a)

/-- Oracle whose unlink of "a/b.md" fails with EACCES while every directory
operation succeeds — used to witness the abort direction of C7. -/
def delFsUnlinkFail : DelFs where
  unlinkRes := fun p => if p == "a/b.md" then some "EACCES" else none
  readdirRes := fun _ => Except.ok []
  rmdirRes := fun _ => none

/-- A small sample Snapshot used by witnesses. -/
def pubSample : List (String × DocData) :=
  [("a.md", ⟨5, "body", [⟨"p 1.png", "p 1.png", "p-1.png", "/obs/image/p 1.png"⟩]⟩)]

lemma mem_jsReplaceWs {c : Char} {s : List Char} (h : c ∈ jsReplaceWs s) :
    isJsSpace c = false := by
  simp only [jsReplaceWs, List.mem_map] at h
  obtain ⟨x, -, hx⟩ := h
  by_cases hs : isJsSpace x = true
  · simp [hs] at hx; subst hx; decide
  · simp [Bool.not_eq_true] at hs; simp [hs] at hx; subst hx; exact hs

lemma mem_jsReplaceAmp {c : Char} {s : List Char} (h : c ∈ jsReplaceAmp s) :
    (c ∈ s ∧ c ≠ '&') ∨ c ∈ ['-', 'a', 'n', 'd'] := by
  simp only [jsReplaceAmp, List.mem_flatMap] at h
  obtain ⟨x, hx, hc⟩ := h
  by_cases hamp : x = '&'
  · subst hamp
    simp only [beq_self_eq_true, if_pos] at hc
    right
    fin_cases hc <;> simp
  · simp only [beq_iff_eq, hamp, if_false, List.mem_singleton] at hc
    subst hc
    exact Or.inl ⟨hx, hamp⟩

lemma mem_jsReplacePercent {c : Char} {s : List Char} (h : c ∈ jsReplacePercent s) :
    (c ∈ s ∧ c ≠ '%') ∨ c ∈ ['-', 'p', 'e', 'r', 'c', 'n', 't'] := by
  simp only [jsReplacePercent, List.mem_flatMap] at h
  obtain ⟨x, hx, hc⟩ := h
  by_cases hp : x = '%'
  · subst hp
    simp only [beq_self_eq_true, if_pos] at hc
    right
    fin_cases hc <;> simp
  · simp only [beq_iff_eq, hp, if_false, List.mem_singleton] at hc
    subst hc
    exact Or.inl ⟨hx, hp⟩

/-- Every character produced by the transform chain is inert: `slugChain`
output contains no whitespace, `&`, `%`, `?`, or `#`. -/
lemma slugChain_inert {c : Char} {s : List Char} (h : c ∈ slugChain s) :
    slugInert c = true := by
  simp only [slugChain, jsDropHash, jsDropQuestion, List.mem_filter] at h
  obtain ⟨⟨hmem, hq⟩, hh⟩ := h
  have hws : isJsSpace c = false ∧ c ≠ '&' ∧ c ≠ '%' := by
    rcases mem_jsReplacePercent hmem with ⟨hin, hpc⟩ | hlit
    · rcases mem_jsReplaceAmp hin with ⟨hin2, hac⟩ | hlit2
      · exact ⟨mem_jsReplaceWs hin2, hac, hpc⟩
      · fin_cases hlit2 <;> exact ⟨by decide, by decide, hpc⟩
    · fin_cases hlit <;> refine ⟨by decide, by decide, by decide⟩
  simp [slugInert, hws.1, hws.2.1, hws.2.2, hq, hh]

lemma jsReplaceWs_of_inert {s : List Char} (h : ∀ c ∈ s, slugInert c = true) :
    jsReplaceWs s = s := by
  unfold jsReplaceWs
  induction s with
  | nil => rfl
  | cons x xs ih =>
    have hx := h x (List.mem_cons_self x xs)
    simp only [slugInert, Bool.and_eq_true, Bool.not_eq_true'] at hx
    rw [List.map_cons, if_neg (by simp [hx.1.1.1.1]),
      ih fun c hc => h c (List.mem_cons_of_mem x hc)]

lemma jsReplaceAmp_of_inert {s : List Char} (h : ∀ c ∈ s, slugInert c = true) :
    jsReplaceAmp s = s := by
  unfold jsReplaceAmp
  induction s with
  | nil => rfl
  | cons x xs ih =>
    have hx := h x (List.mem_cons_self x xs)
    simp only [slugInert, Bool.and_eq_true, Bool.not_eq_true'] at hx
    simp only [List.flatMap_cons, hx.1.1.1.2, if_false]
    rw [ih fun c hc => h c (List.mem_cons_of_mem x hc)]
    rfl

lemma jsReplacePercent_of_inert {s : List Char} (h : ∀ c ∈ s, slugInert c = true) :
    jsReplacePercent s = s := by
  unfold jsReplacePercent
  induction s with
  | nil => rfl
  | cons x xs ih =>
    have hx := h x (List.mem_cons_self x xs)
    simp only [slugInert, Bool.and_eq_true, Bool.not_eq_true'] at hx
    simp only [List.flatMap_cons, hx.1.1.2, if_false]
    rw [ih fun c hc => h c (List.mem_cons_of_mem x hc)]
    rfl

lemma jsDropQuestion_of_inert {s : List Char} (h : ∀ c ∈ s, slugInert c = true) :
    jsDropQuestion s = s := by
  unfold jsDropQuestion
  rw [List.filter_eq_self.mpr]
  intro c hc
  have := h c hc
  simp only [slugInert, Bool.and_eq_true, Bool.not_eq_true'] at this
  simp [this.1.2]

lemma jsDropHash_of_inert {s : List Char} (h : ∀ c ∈ s, slugInert c = true) :
    jsDropHash s = s := by
  unfold jsDropHash
  rw [List.filter_eq_self.mpr]
  intro c hc
  have := h c hc
  simp only [slugInert, Bool.and_eq_true, Bool.not_eq_true'] at this
  simp [this.2]

lemma slugChain_of_inert {s : List Char} (h : ∀ c ∈ s, slugInert c = true) :
    slugChain s = s := by
  unfold slugChain
  rw [jsReplaceWs_of_inert h, jsReplaceAmp_of_inert h, jsReplacePercent_of_inert h,
    jsDropQuestion_of_inert h, jsDropHash_of_inert h]

/-- The transform chain is idempotent as a string function. -/
lemma slugChain_idem (s : List Char) : slugChain (slugChain s) = slugChain s :=
  slugChain_of_inert fun _ hc => slugChain_inert hc

lemma extnameRes_length_le (s : List Char) (st : ExtSt) :
    (extnameRes s st).length ≤ s.length := by
  unfold extnameRes
  split
  · simp
  · rw [List.length_drop, List.length_take]
    exact le_trans (Nat.sub_le _ _) (min_le_right _ _)

lemma extname_length_le (s : List Char) : (extname s).length ≤ s.length :=
  extnameRes_length_le s _

/-- Shared helper: a filename with empty extension slugifies to the empty
string, because the base is computed as `slice(0, -0)` = `slice(0, 0)`. -/
lemma slugify_of_extname_nil {s : List Char} (h : extname s = []) :
    slugifyBasename s = [] := by
  unfold slugifyBasename
  rw [h]
  simp [jsSlice, jsSliceIdx, slugChain, jsReplaceWs, jsReplaceAmp, jsReplacePercent,
    jsDropQuestion, jsDropHash]


/-- Helper: `slice(0, -k)` for `0 < k ≤ len` is `take (len - k)`. -/
lemma jsSlice_neg_end {s : List Char} {k : Nat} (hk : 0 < k) (hle : k ≤ s.length) :
    jsSlice s 0 (-(k : Int)) = s.take (s.length - k) := by
  unfold jsSlice jsSliceIdx
  rw [if_neg (by decide), if_pos (by omega)]
  have h1 : (Int.toNat 0) = 0 := rfl
  have h2 : (max (-(k : Int) + s.length) 0).toNat = s.length - k := by omega
  rw [h1, h2, min_eq_left (Nat.zero_le _), List.drop_zero]

/-- Helper: `slice(0, -0)` is `slice(0, 0)`, the empty string. -/
lemma jsSlice_neg_zero (s : List Char) : jsSlice s 0 (-((0 : Nat) : Int)) = [] := by
  unfold jsSlice jsSliceIdx
  rw [if_neg (by decide), if_neg (by decide)]
  simp

/-- C4 (amended): `slugifyBasename` removes the extension, applies the
transform rules of the spec in order to the part before the extension, and
reappends the extension unchanged — except that for a filename with an empty
extension the transformed part is the empty slice `slice(0, -0)`, so the
result is the empty string rather than the transformed whole name. -/
theorem slugify_transform_rules (name : List Char) :
    slugifyBasename name =
      specTransform (if (extname name).length = 0 then []
        else name.take (name.length - (extname name).length)) ++ extname name := by
  by_cases h : (extname name).length = 0
  · rw [if_pos h]
    show slugChain (jsSlice name 0 (-((extname name).length : Int))) ++ extname name = _
    rw [h, jsSlice_neg_zero]
    rfl
  · rw [if_neg h]
    show slugChain (jsSlice name 0 (-((extname name).length : Int))) ++ extname name = _
    rw [jsSlice_neg_end (Nat.pos_of_ne_zero h) (extname_length_le name)]
    rfl

/-- C4 counterexample: for the extensionless filename "photo" the code returns
the empty string, not the transformed whole name "photo" that the claim
describes. -/
theorem slugify_c4_counterexample :
    slugifyBasename ("photo".toList) ≠ slugifySpecC4 ("photo".toList) ∧
    slugifyBasename ("photo".toList) = [] ∧
    slugifySpecC4 ("photo".toList) = "photo".toList := by decide

/-- C8 counterexample: normalization is not idempotent: "?.png" slugifies to
".png", which slugifies to the empty string. -/
theorem slugify_idem_counterexample :
    slugifyBasename (slugifyBasename ("?.png".toList)) ≠ slugifyBasename ("?.png".toList) ∧
    slugifyBasename ("?.png".toList) = ".png".toList ∧
    slugifyBasename (slugifyBasename ("?.png".toList)) = [] := by decide

/-- C8 (amended): `slugifyBasename` is a pure deterministic function, and it is
idempotent for every filename whose slugified form keeps the same extension;
idempotence can only fail when the pre-extension part slugifies away (e.g.
"?.png" → ".png" → ""). -/
theorem slugify_idem_on_stable_ext (name : List Char)
    (h : extname (slugifyBasename name) = extname name) :
    slugifyBasename (slugifyBasename name) = slugifyBasename name := by
  by_cases h0 : extname name = []
  · rw [slugify_of_extname_nil h0]
    exact slugify_of_extname_nil (by decide)
  · have hslug : slugifyBasename name =
        slugChain (jsSlice name 0 (-((extname name).length : Int))) ++ extname name := rfl
    have h2 : slugifyBasename (slugifyBasename name) =
        slugChain (jsSlice (slugifyBasename name) 0
          (-((extname (slugifyBasename name)).length : Int))) ++
          extname (slugifyBasename name) := rfl
    have hlen : 0 < (extname name).length := List.length_pos.mpr h0
    have hslice : jsSlice (slugifyBasename name) 0 (-((extname name).length : Int)) =
        slugChain (jsSlice name 0 (-((extname name).length : Int))) := by
      rw [jsSlice_neg_end hlen (h ▸ extname_length_le (slugifyBasename name)), hslug,
        List.length_append, Nat.add_sub_cancel, List.take_left]
    rw [h2, h, hslice, slugChain_idem, ← hslug]

/-- Witness for C8's amended theorem at the filename "my file.png". -/
theorem slugify_idem_witness :
    extname (slugifyBasename ("my file.png".toList)) = extname ("my file.png".toList) ∧
    slugifyBasename (slugifyBasename ("my file.png".toList)) =
      slugifyBasename ("my file.png".toList) :=
  ⟨by decide, slugify_idem_on_stable_ext ("my file.png".toList) (by decide)⟩

/-- C9: a filename whose extension is empty (no dot-separated extension, or a
leading-dot name like ".png") slugifies to the empty string, because the base
is computed as `slice(0, -0)` = `slice(0, 0)`. -/
theorem slugify_empty_extension (name : List Char) (h : extname name = []) :
    slugifyBasename name = [] :=
  slugify_of_extname_nil h

/-- Witness for C9 at the extensionless filename "photo". -/
theorem slugify_empty_extension_witness :
    extname ("photo".toList) = [] ∧ slugifyBasename ("photo".toList) = [] :=
  ⟨by decide, slugify_empty_extension ("photo".toList) (by decide)⟩

lemma startsWithCh_iff {p l : List Char} : startsWithCh p l = true ↔ ∃ t, l = p ++ t := by
  induction p generalizing l with
  | nil => simp [startsWithCh]
  | cons x xs ih =>
    cases l with
    | nil => simp [startsWithCh]
    | cons y ys =>
      simp only [startsWithCh, Bool.and_eq_true, beq_iff_eq, ih, List.cons_append]
      constructor
      · rintro ⟨rfl, t, rfl⟩
        exact ⟨t, rfl⟩
      · rintro ⟨t, h⟩
        injection h with h1 h2
        exact ⟨h1.symm, t, h2⟩

lemma findClose_sound {l g : List Char} (h : findClose l = some g) :
    ∃ r, l = g ++ nlMarker ++ r := by
  induction l generalizing g with
  | nil => simp [findClose] at h
  | cons x xs ih =>
    unfold findClose at h
    by_cases hs : startsWithCh nlMarker (x :: xs) = true
    · rw [if_pos hs] at h
      obtain ⟨t, ht⟩ := startsWithCh_iff.mp hs
      cases h
      exact ⟨t, by simpa using ht⟩
    · rw [if_neg hs] at h
      cases hfc : findClose xs with
      | none => rw [hfc] at h; simp at h
      | some g0 =>
        rw [hfc] at h
        simp only [Option.map_some', Option.some.injEq] at h
        obtain ⟨r, hr⟩ := ih hfc
        exact ⟨r, by rw [← h]; simp [hr]⟩

lemma findClose_minimal {l g : List Char} (h : findClose l = some g) :
    ∀ g' r', l = g' ++ nlMarker ++ r' → g.length ≤ g'.length := by
  induction l generalizing g with
  | nil => simp [findClose] at h
  | cons x xs ih =>
    intro g' r' hl
    unfold findClose at h
    by_cases hs : startsWithCh nlMarker (x :: xs) = true
    · rw [if_pos hs] at h
      cases h
      simp
    · rw [if_neg hs] at h
      cases g' with
      | nil =>
        exact absurd (startsWithCh_iff.mpr ⟨r', by simpa using hl⟩) hs
      | cons y ys =>
        injection hl with h1 h2
        cases hfc : findClose xs with
        | none => rw [hfc] at h; simp at h
        | some g0 =>
          rw [hfc] at h
          simp only [Option.map_some', Option.some.injEq] at h
          have := ih hfc ys r' h2
          rw [← h]
          simpa using Nat.succ_le_succ this

lemma findClose_complete {l g' r' : List Char} (h : l = g' ++ nlMarker ++ r') :
    ∃ g, findClose l = some g := by
  induction g' generalizing l with
  | nil =>
    subst h
    refine ⟨[], ?_⟩
    show findClose ('\n' :: '-' :: '-' :: '-' :: r') = some []
    unfold findClose
    have hs : startsWithCh nlMarker ('\n' :: '-' :: '-' :: '-' :: r') = true :=
      startsWithCh_iff.mpr ⟨r', rfl⟩
    rw [if_pos hs]
  | cons y ys ih =>
    subst h
    show ∃ g, findClose (y :: (ys ++ nlMarker ++ r')) = some g
    unfold findClose
    by_cases hs : startsWithCh nlMarker (y :: (ys ++ nlMarker ++ r')) = true
    · exact ⟨[], by rw [if_pos hs]⟩
    · obtain ⟨g0, hg0⟩ := ih rfl
      exact ⟨y :: g0, by rw [if_neg hs, hg0]; rfl⟩

/-- C6 counterexample: the document "---\n可发布: true\n---tail" is accepted by
the code, but its header block is not closed by a matching `---` line (the
closing line is "---tail"), so the claim's characterization rejects it. -/
theorem frontmatter_counterexample :
    hasPublishableFrontmatter ("---\n可发布: true\n---tail".toList) = true ∧
    specPublishableStrict ("---\n可发布: true\n---tail".toList) = false := by decide

/-- C6 (amended): for a document that opens with the line `---` (marker
immediately followed by a line break and a non-whitespace character), the
filter accepts iff the remaining text contains an occurrence of `\n---` (a
line break immediately followed by three hyphens — the closing line may have
trailing text) and the segment before the earliest such occurrence contains
one of the keys 可发布/已发布 followed by optional whitespace, a colon,
optional whitespace and the four characters "true". -/
theorem frontmatter_amended (c : Char) (cs : List Char) (hc : isJsSpace c = false) :
    hasPublishableFrontmatter ('-' :: '-' :: '-' :: '\n' :: c :: cs) = true ↔
      ∃ g r, c :: cs = g ++ nlMarker ++ r ∧ pubSearch g = true ∧
        ∀ g' r', c :: cs = g' ++ nlMarker ++ r' → g.length ≤ g'.length := by
  have hws : wsPrefLen ('\n' :: c :: cs) = 1 := by
    show (if isJsSpace '\n' then wsPrefLen (c :: cs) + 1 else 0) = 1
    rw [if_pos (by decide)]
    show (if isJsSpace c then wsPrefLen cs + 1 else 0) + 1 = 1
    rw [if_neg (by simp [hc])]
  have hcand1 : fmCandidate ('\n' :: c :: cs) 1 = none := by
    unfold fmCandidate
    rw [if_neg]
    simp only [List.getElem?_cons_succ, List.getElem?_cons_zero, Bool.and_eq_true,
      decide_eq_true_eq, not_and]
    intro _ hEq
    injection hEq with hEq
    rw [hEq] at hc
    exact absurd hc (by decide)
  have hcand0 : fmCandidate ('\n' :: c :: cs) 0 = findClose (c :: cs) := by
    unfold fmCandidate
    have hcond : ((('\n' :: c :: cs).take 0).all isJsSpace &&
        decide (('\n' :: c :: cs)[0]? = some '\n')) = true := rfl
    rw [if_pos hcond]
    rfl
  have hred : hasPublishableFrontmatter ('-' :: '-' :: '-' :: '\n' :: c :: cs) =
      (match findClose (c :: cs) with
        | some g => pubSearch g
        | none => false) := by
    show (match fmGroup ('-' :: '-' :: '-' :: '\n' :: c :: cs) with
        | some g => pubSearch g
        | none => false) = _
    have hgrp : fmGroup ('-' :: '-' :: '-' :: '\n' :: c :: cs) = findClose (c :: cs) := by
      show fmTry ('\n' :: c :: cs) (wsPrefLen ('\n' :: c :: cs)) = findClose (c :: cs)
      rw [hws]
      show (match fmCandidate ('\n' :: c :: cs) 1 with
          | some g => some g
          | none => fmTry ('\n' :: c :: cs) 0) = findClose (c :: cs)
      rw [hcand1]
      show fmCandidate ('\n' :: c :: cs) 0 = findClose (c :: cs)
      exact hcand0
    rw [hgrp]
  rw [hred]
  cases hfc : findClose (c :: cs) with
  | none =>
    simp only [Bool.false_eq_true, false_iff]
    rintro ⟨g, r, hdec, -, -⟩
    obtain ⟨g0, hg0⟩ := findClose_complete hdec
    rw [hfc] at hg0
    exact Option.noConfusion hg0
  | some g =>
    constructor
    · intro hpub
      obtain ⟨r, hr⟩ := findClose_sound hfc
      exact ⟨g, r, hr, hpub, findClose_minimal hfc⟩
    · rintro ⟨g', r', hdec', hpub', hmin'⟩
      obtain ⟨r, hr⟩ := findClose_sound hfc
      have hlen : g.length = g'.length :=
        le_antisymm (findClose_minimal hfc g' r' hdec') (hmin' g r hr)
      have : g = g' := by
        have hgg : g ++ (nlMarker ++ r) = g' ++ (nlMarker ++ r') := by
          rw [← List.append_assoc, ← List.append_assoc, ← hr, ← hdec']
        exact (List.append_inj hgg hlen).1
      rw [this]
      exact hpub'

/-- Witness for C6's amended theorem at the document "---\n可发布: true\n---". -/
theorem frontmatter_amended_witness :
    isJsSpace '可' = false ∧
    (hasPublishableFrontmatter ('-' :: '-' :: '-' :: '\n' :: '可' :: "发布: true\n---".toList) = true ↔
      ∃ g r, '可' :: "发布: true\n---".toList = g ++ nlMarker ++ r ∧ pubSearch g = true ∧
        ∀ g' r', '可' :: "发布: true\n---".toList = g' ++ nlMarker ++ r' →
          g.length ≤ g'.length) :=
  ⟨by decide, frontmatter_amended '可' ("发布: true\n---".toList) (by decide)⟩

lemma mem_foldl_setAdd {α : Type} [DecidableEq α] (l : List α) (acc : List α) (x : α) :
    x ∈ l.foldl setAdd acc ↔ x ∈ acc ∨ x ∈ l := by
  induction l generalizing acc with
  | nil => simp
  | cons y ys ih =>
    simp only [List.foldl_cons, ih]
    unfold setAdd
    by_cases hy : y ∈ acc
    · rw [if_pos hy]
      simp only [List.mem_cons]
      constructor
      · rintro (h | h)
        · exact Or.inl h
        · exact Or.inr (Or.inr h)
      · rintro (h | rfl | h)
        · exact Or.inl h
        · exact Or.inl hy
        · exact Or.inr h
    · rw [if_neg hy]
      simp only [List.mem_append, List.mem_singleton, List.mem_cons]
      tauto

/-- C10: the markdown-image pass never collects a reference whose trimmed
target begins with the four characters "http" (any such reference in the
output can only come from a wiki embed); wiki embeds are collected regardless
of prefix; and a local relative target such as "httpdocs/a.png" is dropped. -/
theorem extract_http_exclusion :
    (∀ content r, r ∈ extractAssetRefs content → startsWithCh httpPrefix r = true →
      r ∈ (wikiRefs content).map jsTrim) ∧
    (∀ content w, w ∈ wikiRefs content → jsTrim w ∈ extractAssetRefs content) ∧
    extractAssetRefs ("![x](httpdocs/a.png)".toList) = [] := by
  refine ⟨?_, ?_, by decide⟩
  · intro content r hr hhttp
    unfold extractAssetRefs at hr
    rw [mem_foldl_setAdd] at hr
    rcases hr with h | h
    · simp at h
    · rw [List.mem_append] at h
      rcases h with h | h
      · exact h
      · rw [List.mem_filter] at h
        exact absurd hhttp (by simpa using h.2)
  · intro content w hw
    unfold extractAssetRefs
    rw [mem_foldl_setAdd]
    exact Or.inr (List.mem_append_left _ (List.mem_map_of_mem _ hw))

/-- Witness for C10: a wiki embed whose target starts with "http" is still
collected, and it indeed comes from the wiki pass. -/
theorem extract_http_exclusion_witness :
    "http://x.png".toList ∈ extractAssetRefs ("![[http://x.png]]".toList) ∧
    startsWithCh httpPrefix ("http://x.png".toList) = true ∧
    "http://x.png".toList ∈ (wikiRefs ("![[http://x.png]]".toList)).map jsTrim :=
  ⟨by decide, by decide,
    extract_http_exclusion.1 ("![[http://x.png]]".toList) ("http://x.png".toList)
      (by decide) (by decide)⟩

lemma mem_of_lookup_eq_some {β : Type} {l : List (String × β)} {k : String} {v : β}
    (h : l.lookup k = some v) : (k, v) ∈ l := by
  induction l with
  | nil => simp [List.lookup] at h
  | cons p t ih =>
    obtain ⟨k', v'⟩ := p
    by_cases hk : k = k'
    · subst hk
      simp only [List.lookup, beq_self_eq_true, Option.some.injEq] at h
      rw [← h]
      exact List.mem_cons_self _ _
    · simp only [List.lookup, beq_eq_false_iff_ne.mpr hk] at h
      exact List.mem_cons_of_mem _ (ih h)

lemma lookup_map_pairs {β γ : Type} (g : String → β → γ) (l : List (String × β))
    {rel : String} {b : β} (hnd : (l.map Prod.fst).Nodup) (hmem : (rel, b) ∈ l) :
    (l.map fun p => (p.1, g p.1 p.2)).lookup rel = some (g rel b) := by
  induction l with
  | nil => simp at hmem
  | cons p t ih =>
    obtain ⟨k', v'⟩ := p
    rw [List.map_cons, List.nodup_cons] at hnd
    rcases List.mem_cons.mp hmem with heq | hmem'
    · rw [Prod.mk.injEq] at heq
      obtain ⟨rfl, rfl⟩ := heq
      simp [List.lookup]
    · have hne : rel ≠ k' := by
        rintro rfl
        exact hnd.1 (List.mem_map.mpr ⟨(rel, b), hmem', rfl⟩)
      simp only [List.map_cons, List.lookup, beq_eq_false_iff_ne.mpr hne]
      exact ih hnd.2 hmem'

lemma newManifest_keys (entries : List (String × ManEntry)) (pub : List (String × DocData)) :
    (newManifest entries pub).map Prod.fst = pub.map Prod.fst := by
  unfold newManifest
  rw [List.map_map]
  rfl

lemma assetsChangedB_self (l : List String) : assetsChangedB l l = false := by
  unfold assetsChangedB
  simp only [beq_self_eq_true, Bool.not_true, Bool.false_or]
  rw [List.any_eq_false]
  intro x hx
  simp [hx]

lemma phase2Step_of_lookup_none {entries : List (String × ManEntry)} {rel : String}
    {d : DocData} (h : entries.lookup rel = none) :
    phase2Step entries rel d = (docWriteEffects rel d, freshEntry d) := by
  simp only [phase2Step, h]

lemma phase2Step_of_cond_true {entries : List (String × ManEntry)} {rel : String}
    {d : DocData} {prev : ManEntry} (h : entries.lookup rel = some prev)
    (hc : (decide (prev.mtime < d.mtime) ||
      assetsChangedB prev.assets (d.assets.map destAssetPath)) = true) :
    phase2Step entries rel d = (docWriteEffects rel d, freshEntry d) := by
  simp only [phase2Step, h]
  rw [if_pos hc]

lemma phase2Step_of_cond_false {entries : List (String × ManEntry)} {rel : String}
    {d : DocData} {prev : ManEntry} (h : entries.lookup rel = some prev)
    (hc : (decide (prev.mtime < d.mtime) ||
      assetsChangedB prev.assets (d.assets.map destAssetPath)) = false) :
    phase2Step entries rel d = ([], prev) := by
  simp only [phase2Step, h]
  rw [if_neg (by rw [hc]; exact Bool.false_ne_true)]

lemma freshEntry_cond_false (d : DocData) :
    (decide ((freshEntry d).mtime < d.mtime) ||
      assetsChangedB (freshEntry d).assets (d.assets.map destAssetPath)) = false := by
  unfold freshEntry
  rw [Bool.or_eq_false_iff]
  exact ⟨decide_eq_false (lt_irrefl _), assetsChangedB_self _⟩

/-- A document whose manifest entry was produced by a run over the same
Snapshot data takes the fast path: no effects, entry carried forward. -/
lemma phase2Step_stable {entries : List (String × ManEntry)} {rel : String} {d : DocData}
    {m1 : List (String × ManEntry)}
    (hlk : m1.lookup rel = some (phase2Step entries rel d).2) :
    phase2Step m1 rel d = ([], (phase2Step entries rel d).2) := by
  rcases hfirst : entries.lookup rel with _ | prev
  · have h2 : (phase2Step entries rel d).2 = freshEntry d := by
      rw [phase2Step_of_lookup_none hfirst]
    rw [h2] at hlk ⊢
    exact phase2Step_of_cond_false hlk (freshEntry_cond_false d)
  · cases hcond : (decide (prev.mtime < d.mtime) ||
        assetsChangedB prev.assets (d.assets.map destAssetPath)) with
    | true =>
      have h2 : (phase2Step entries rel d).2 = freshEntry d := by
        rw [phase2Step_of_cond_true hfirst hcond]
      rw [h2] at hlk ⊢
      exact phase2Step_of_cond_false hlk (freshEntry_cond_false d)
    | false =>
      have h2 : (phase2Step entries rel d).2 = prev := by
        rw [phase2Step_of_cond_false hfirst hcond]
      rw [h2] at hlk ⊢
      exact phase2Step_of_cond_false hlk hcond

/-- C1: running the engine a second time on the same Snapshot, starting from
the manifest the first run produced, performs zero writes, copies, or
deletions of destination files, and returns the same manifest. -/
theorem run_idempotent (dirEmpty dirEmpty' : String → Bool)
    (pub : List (String × DocData)) (entries : List (String × ManEntry))
    (hnd : (pub.map Prod.fst).Nodup) :
    (runModel dirEmpty' pub (runModel dirEmpty pub entries).2).1.filter isDestFileMutation = [] ∧
    (runModel dirEmpty' pub (runModel dirEmpty pub entries).2).2 =
      (runModel dirEmpty pub entries).2 := by
  have hlkup : ∀ q ∈ pub, (newManifest entries pub).lookup q.1 =
      some (phase2Step entries q.1 q.2).2 := by
    intro q hq
    exact lookup_map_pairs (fun r d => (phase2Step entries r d).2) pub hnd (by simpa using hq)
  have htoDel : toDeleteMd pub (newManifest entries pub) = [] := by
    unfold toDeleteMd
    rw [newManifest_keys]
    refine List.filter_eq_nil_iff.mpr ?_
    intro rel hrel
    simp only [Bool.not_eq_true', Bool.not_eq_false]
    obtain ⟨q, hq, hfst⟩ := List.mem_map.mp hrel
    have hmemq : (q.1, q.2) ∈ pub := by simpa using hq
    have : (rel, q.2) ∈ pub := hfst ▸ hmemq
    exact List.elem_eq_true_of_mem (List.mem_map.mpr ⟨(rel, q.2), this, rfl⟩)
  have hdel : deletePhase dirEmpty' pub (newManifest entries pub) = [] := by
    unfold deletePhase
    rw [htoDel]
    rfl
  have hph2 : phase2Effects (newManifest entries pub) pub = [] := by
    unfold phase2Effects
    refine List.flatMap_eq_nil_iff.mpr ?_
    intro q hq
    rw [phase2Step_stable (hlkup q hq)]
  constructor
  · show (deletePhase dirEmpty' pub (newManifest entries pub) ++
        Effect.mkdirDir "image" :: phase2Effects (newManifest entries pub) pub).filter
        isDestFileMutation = []
    rw [hdel, hph2]
    rfl
  · show newManifest (newManifest entries pub) pub = newManifest entries pub
    refine List.map_congr_left ?_
    intro q hq
    rw [phase2Step_stable (hlkup q hq)]

/-- Witness for C1 at a one-document Snapshot against the empty manifest. -/
theorem run_idempotent_witness :
    (pubSample.map Prod.fst).Nodup ∧
    ((runModel (fun _ => false) pubSample (runModel (fun _ => true) pubSample []).2).1.filter
        isDestFileMutation = [] ∧
      (runModel (fun _ => false) pubSample (runModel (fun _ => true) pubSample []).2).2 =
        (runModel (fun _ => true) pubSample []).2) :=
  ⟨by decide, run_idempotent (fun _ => true) (fun _ => false) pubSample [] (by decide)⟩

lemma mem_referenced_iff {pub : List (String × DocData)} {p : String} :
    p ∈ assetsStillReferenced pub ↔ ∃ q ∈ pub, ∃ a ∈ q.2.assets, destAssetPath a = p := by
  unfold assetsStillReferenced
  constructor
  · intro h
    obtain ⟨q, hq, hin⟩ := List.mem_flatMap.mp h
    obtain ⟨a, ha, rfl⟩ := List.mem_map.mp hin
    exact ⟨q, hq, a, ha, rfl⟩
  · rintro ⟨q, hq, a, ha, rfl⟩
    exact List.mem_flatMap.mpr ⟨q, hq, List.mem_map.mpr ⟨a, ha, rfl⟩⟩

/-- C2: during the delete phase, a destination asset path listed in a manifest
entry being deleted is unlinked iff no document remaining in the Snapshot has
a resolved asset whose destination path `image/<slug>` equals it.  The prefix
hypotheses record that manifest keys are document paths (never under `image/`)
while the listed path is a destination asset path. -/
theorem delete_asset_refcount (dirEmpty : String → Bool)
    (pub : List (String × DocData)) (entries : List (String × ManEntry)) (p : String)
    (hkeys : ∀ rel ∈ entries.map Prod.fst, startsWithCh ("image/".toList) rel.data = false)
    (hp : startsWithCh ("image/".toList) p.data = true)
    (hlisted : ∃ rel ∈ toDeleteMd pub entries, p ∈ entryAssets entries rel) :
    (Effect.unlinkFile p ∈ deletePhase dirEmpty pub entries ↔
      ∀ q ∈ pub, ∀ a ∈ q.2.assets, destAssetPath a ≠ p) := by
  have hbridge : (∀ q ∈ pub, ∀ a ∈ q.2.assets, destAssetPath a ≠ p) ↔
      p ∉ assetsStillReferenced pub := by
    rw [mem_referenced_iff]
    constructor
    · rintro h ⟨q, hq, a, ha, heq⟩
      exact h q hq a ha heq
    · intro h q hq a ha heq
      exact h ⟨q, hq, a, ha, heq⟩
  rw [hbridge]
  unfold deletePhase
  rw [List.mem_append]
  constructor
  · rintro (hin | hin)
    · obtain ⟨rel, hrel, hine⟩ := List.mem_flatMap.mp hin
      unfold deleteDocEffects at hine
      rcases List.mem_cons.mp hine with heq | hin2
      · injection heq with heq
        subst heq
        have hrelkeys : p ∈ entries.map Prod.fst := by
          unfold toDeleteMd at hrel
          exact (List.mem_filter.mp hrel).1
        rw [hkeys p hrelkeys] at hp
        exact absurd hp (by simp)
      · obtain ⟨a, ha, hsome⟩ := List.mem_filterMap.mp hin2
        by_cases hcont : (assetsStillReferenced pub).contains a = true
        · rw [if_pos hcont] at hsome
          exact absurd hsome (by simp)
        · rw [if_neg hcont] at hsome
          injection hsome with hsome
          injection hsome with hsome
          subst hsome
          intro hmem
          exact hcont (List.elem_eq_true_of_mem hmem)
    · exfalso
      obtain ⟨d, hd, hine⟩ := List.mem_flatMap.mp hin
      unfold dirCleanupEffects at hine
      by_cases hskip : (d == "" || d == ".") = true
      · rw [if_pos hskip] at hine
        exact List.not_mem_nil _ hine
      · rw [if_neg hskip] at hine
        rcases List.mem_cons.mp hine with heq | hin2
        · exact absurd heq (by simp)
        · by_cases hemp : dirEmpty d = true
          · rw [if_pos hemp] at hin2
            rw [List.mem_singleton] at hin2
            exact absurd hin2 (by simp)
          · rw [if_neg hemp] at hin2
            exact List.not_mem_nil _ hin2
  · intro hnotref
    obtain ⟨rel, hrel, hpa⟩ := hlisted
    refine Or.inl (List.mem_flatMap.mpr ⟨rel, hrel, ?_⟩)
    unfold deleteDocEffects
    refine List.mem_cons_of_mem _ (List.mem_filterMap.mpr ⟨p, hpa, ?_⟩)
    rw [if_neg]
    intro hcont
    exact hnotref (List.mem_of_elem_eq_true hcont)

/-- Witness for C2: a deleted manifest entry lists "image/x.png" and the
(empty) Snapshot no longer references it, so it is unlinked. -/
theorem delete_asset_refcount_witness :
    (∀ rel ∈ ([("a.md", (⟨1, ["image/x.png"]⟩ : ManEntry))].map Prod.fst),
        startsWithCh ("image/".toList) rel.data = false) ∧
    startsWithCh ("image/".toList) ("image/x.png" : String).data = true ∧
    (∃ rel ∈ toDeleteMd [] [("a.md", (⟨1, ["image/x.png"]⟩ : ManEntry))],
        "image/x.png" ∈ entryAssets [("a.md", (⟨1, ["image/x.png"]⟩ : ManEntry))] rel) ∧
    (Effect.unlinkFile "image/x.png" ∈
        deletePhase (fun _ => false) [] [("a.md", (⟨1, ["image/x.png"]⟩ : ManEntry))] ↔
      ∀ q ∈ ([] : List (String × DocData)), ∀ a ∈ q.2.assets,
        destAssetPath a ≠ "image/x.png") :=
  ⟨by decide, by decide, by decide,
    delete_asset_refcount (fun _ => false) [] [("a.md", ⟨1, ["image/x.png"]⟩)] "image/x.png"
      (by decide) (by decide) (by decide)⟩

/-- C3: every destination file a run writes, copies onto, or deletes has its
path recorded either in the loaded manifest (document key or listed asset
path) or in the manifest the run produces; no destination file is read at all
(no effect constructor reads a destination file). -/
theorem run_no_clobber (dirEmpty : String → Bool) (pub : List (String × DocData))
    (entries : List (String × ManEntry)) (e : Effect) (p : String)
    (he : e ∈ (runModel dirEmpty pub entries).1) (hp : mutTarget e = some p) :
    p ∈ manifestPaths entries ∨ p ∈ manifestPaths (runModel dirEmpty pub entries).2 := by
  have he' : e ∈ deletePhase dirEmpty pub entries ++
      Effect.mkdirDir "image" :: phase2Effects entries pub := he
  rw [List.mem_append] at he'
  rcases he' with hin | hin
  · left
    unfold deletePhase at hin
    rw [List.mem_append] at hin
    rcases hin with hin | hin
    · obtain ⟨rel, hrel, hine⟩ := List.mem_flatMap.mp hin
      have hrelkey : rel ∈ entries.map Prod.fst := by
        unfold toDeleteMd at hrel
        exact (List.mem_filter.mp hrel).1
      unfold deleteDocEffects at hine
      rcases List.mem_cons.mp hine with heq | hin2
      · rw [heq] at hp
        injection hp with hp
        exact List.mem_append_left _ (hp ▸ hrelkey)
      · obtain ⟨a, ha, hsome⟩ := List.mem_filterMap.mp hin2
        by_cases hcont : (assetsStillReferenced pub).contains a = true
        · rw [if_pos hcont] at hsome
          exact absurd hsome (by simp)
        · rw [if_neg hcont] at hsome
          injection hsome with hsome
          rw [← hsome] at hp
          injection hp with hp
          unfold entryAssets at ha
          rcases hlk : entries.lookup rel with _ | en
          · rw [hlk] at ha
            exact absurd ha (List.not_mem_nil _)
          · rw [hlk] at ha
            refine List.mem_append_right _
              (List.mem_flatMap.mpr ⟨(rel, en), mem_of_lookup_eq_some hlk, hp ▸ ha⟩)
    · exfalso
      obtain ⟨d, hd, hine⟩ := List.mem_flatMap.mp hin
      unfold dirCleanupEffects at hine
      by_cases hskip : (d == "" || d == ".") = true
      · rw [if_pos hskip] at hine
        exact List.not_mem_nil _ hine
      · rw [if_neg hskip] at hine
        rcases List.mem_cons.mp hine with heq | hin2
        · rw [heq] at hp
          exact absurd hp (by simp [mutTarget])
        · by_cases hemp : dirEmpty d = true
          · rw [if_pos hemp] at hin2
            rw [List.mem_singleton] at hin2
            rw [hin2] at hp
            exact absurd hp (by simp [mutTarget])
          · rw [if_neg hemp] at hin2
            exact List.not_mem_nil _ hin2
  · rcases List.mem_cons.mp hin with heq | hin2
    · rw [heq] at hp
      exact absurd hp (by simp [mutTarget])
    · right
      show p ∈ manifestPaths (newManifest entries pub)
      obtain ⟨q, hq, hine⟩ := List.mem_flatMap.mp hin2
      have hpair : (q.1, (phase2Step entries q.1 q.2).2) ∈ newManifest entries pub :=
        List.mem_map.mpr ⟨q, hq, rfl⟩
      have hwrite : ∀ hstep : phase2Step entries q.1 q.2 =
          (docWriteEffects q.1 q.2, freshEntry q.2),
          p ∈ manifestPaths (newManifest entries pub) := by
        intro hstep
        have heff : (phase2Step entries q.1 q.2).1 = docWriteEffects q.1 q.2 := by rw [hstep]
        have hentry : (phase2Step entries q.1 q.2).2 = freshEntry q.2 := by rw [hstep]
        rw [heff] at hine
        rw [hentry] at hpair
        unfold docWriteEffects at hine
        rcases List.mem_cons.mp hine with heq | hin3
        · rw [heq] at hp
          exact absurd hp (by simp [mutTarget])
        · rcases List.mem_append.mp hin3 with hin3 | hin3
          · obtain ⟨a, ha, heq⟩ := List.mem_map.mp hin3
            rw [← heq] at hp
            injection hp with hp
            refine List.mem_append_right _ (List.mem_flatMap.mpr ⟨(q.1, freshEntry q.2),
              hpair, ?_⟩)
            exact hp ▸ List.mem_map.mpr ⟨a, ha, rfl⟩
          · rw [List.mem_singleton] at hin3
            rw [hin3] at hp
            injection hp with hp
            refine List.mem_append_left _ (List.mem_map.mpr ⟨(q.1, freshEntry q.2), hpair, ?_⟩)
            exact hp
      rcases hlk : entries.lookup q.1 with _ | prev
      · exact hwrite (phase2Step_of_lookup_none hlk)
      · cases hcond : (decide (prev.mtime < q.2.mtime) ||
            assetsChangedB prev.assets (q.2.assets.map destAssetPath)) with
        | true => exact hwrite (phase2Step_of_cond_true hlk hcond)
        | false =>
          rw [phase2Step_of_cond_false hlk hcond] at hine
          exact absurd hine (List.not_mem_nil _)

/-- Witness for C3: the delete of an obsolete document targets a path that is
a key of the loaded manifest. -/
theorem run_no_clobber_witness :
    Effect.unlinkFile "a.md" ∈
      (runModel (fun _ => false) [] [("a.md", (⟨1, []⟩ : ManEntry))]).1 ∧
    mutTarget (Effect.unlinkFile "a.md") = some "a.md" ∧
    ("a.md" ∈ manifestPaths [("a.md", (⟨1, []⟩ : ManEntry))] ∨
      "a.md" ∈ manifestPaths (runModel (fun _ => false) []
        [("a.md", (⟨1, []⟩ : ManEntry))]).2) :=
  ⟨by decide, by decide,
    run_no_clobber (fun _ => false) [] [("a.md", ⟨1, []⟩)] (Effect.unlinkFile "a.md") "a.md"
      (by decide) (by decide)⟩

lemma cleanupListE_ok (o : DelFs) (ds : List String) : cleanupListE o ds = Except.ok () := by
  induction ds with
  | nil => rfl
  | cons d rest ih =>
    unfold cleanupListE cleanupDirCaught
    by_cases h : (d == "" || d == ".") = true
    · rw [if_pos h]
      exact ih
    · rw [if_neg h]
      cases cleanupDirE o d <;> exact ih

lemma tryUnlink_ok {o : DelFs} {p : String}
    (h : o.unlinkRes p = none ∨ o.unlinkRes p = some "ENOENT") :
    tryUnlink o p = Except.ok () := by
  unfold tryUnlink
  rcases h with h | h <;> rw [h]
  rfl

lemma tryUnlink_error {o : DelFs} {p : String} {c : String}
    (h : tryUnlink o p = Except.error c) :
    c ≠ "ENOENT" ∧ o.unlinkRes p = some c := by
  unfold tryUnlink at h
  cases hu : o.unlinkRes p with
  | none =>
    simp only [hu] at h
    exact absurd h (by simp)
  | some code =>
    simp only [hu] at h
    by_cases hc : (code == "ENOENT") = true
    · rw [if_pos hc] at h
      exact absurd h (by simp)
    · rw [if_neg hc] at h
      injection h with h
      subst h
      exact ⟨fun heq => hc (beq_iff_eq.mpr heq), rfl⟩

lemma delAssetsE_ok (o : DelFs) (refd : List String)
    (hclean : ∀ p, o.unlinkRes p = none ∨ o.unlinkRes p = some "ENOENT") :
    ∀ l, delAssetsE o refd l = Except.ok () := by
  intro l
  induction l with
  | nil => rfl
  | cons a rest ih =>
    unfold delAssetsE
    by_cases h : refd.contains a = true
    · rw [if_pos h]
      exact ih
    · rw [if_neg h, tryUnlink_ok (hclean a)]
      exact ih

lemma delAssetsE_error {o : DelFs} {refd : List String} :
    ∀ {l : List String} {c : String}, delAssetsE o refd l = Except.error c →
      c ≠ "ENOENT" ∧ ∃ p, o.unlinkRes p = some c := by
  intro l
  induction l with
  | nil =>
    intro c h
    exact absurd h (by simp [delAssetsE])
  | cons a rest ih =>
    intro c h
    unfold delAssetsE at h
    by_cases hc : refd.contains a = true
    · rw [if_pos hc] at h
      exact ih h
    · rw [if_neg hc] at h
      cases htry : tryUnlink o a with
      | error c' =>
        simp only [htry] at h
        injection h with h
        obtain ⟨hne, hu⟩ := tryUnlink_error htry
        exact h ▸ ⟨hne, a, hu⟩
      | ok _ =>
        simp only [htry] at h
        exact ih h

lemma delDocsE_ok (o : DelFs) (entries : List (String × ManEntry)) (refd : List String)
    (hclean : ∀ p, o.unlinkRes p = none ∨ o.unlinkRes p = some "ENOENT") :
    ∀ l, delDocsE o entries refd l = Except.ok () := by
  intro l
  induction l with
  | nil => rfl
  | cons rel rest ih =>
    unfold delDocsE
    rw [tryUnlink_ok (hclean rel), delAssetsE_ok o refd hclean (entryAssets entries rel)]
    exact ih

lemma delDocsE_error {o : DelFs} {entries : List (String × ManEntry)} {refd : List String} :
    ∀ {l : List String} {c : String}, delDocsE o entries refd l = Except.error c →
      c ≠ "ENOENT" ∧ ∃ p, o.unlinkRes p = some c := by
  intro l
  induction l with
  | nil =>
    intro c h
    exact absurd h (by simp [delDocsE])
  | cons rel rest ih =>
    intro c h
    unfold delDocsE at h
    cases htry : tryUnlink o rel with
    | error c' =>
      simp only [htry] at h
      injection h with h
      obtain ⟨hne, hu⟩ := tryUnlink_error htry
      exact h ▸ ⟨hne, rel, hu⟩
    | ok _ =>
      simp only [htry] at h
      cases hass : delAssetsE o refd (entryAssets entries rel) with
      | error c' =>
        simp only [hass] at h
        injection h with h
        exact h ▸ delAssetsE_error hass
      | ok _ =>
        simp only [hass] at h
        exact ih h

/-- A successful asset-deletion pass performed every uncaught unlink
successfully (or with the swallowed ENOENT). -/
lemma delAssetsE_ok_all {o : DelFs} {refd : List String} :
    ∀ {l : List String}, delAssetsE o refd l = Except.ok () →
      ∀ a ∈ l, refd.contains a = false → tryUnlink o a = Except.ok () := by
  intro l
  induction l with
  | nil =>
    intro _ a ha _
    exact absurd ha (List.not_mem_nil a)
  | cons x rest ih =>
    intro h a ha hnc
    unfold delAssetsE at h
    rcases List.mem_cons.mp ha with rfl | ha'
    · rw [if_neg (by rw [hnc]; exact Bool.false_ne_true)] at h
      cases htry : tryUnlink o a with
      | ok u => exact rfl
      | error c =>
        simp only [htry] at h
        exact h
    · by_cases hx : refd.contains x = true
      · rw [if_pos hx] at h
        exact ih h a ha' hnc
      · rw [if_neg hx] at h
        cases htry : tryUnlink o x with
        | ok u =>
          simp only [htry] at h
          exact ih h a ha' hnc
        | error c =>
          simp only [htry] at h
          exact absurd h (by simp)

/-- Abort direction: if any unlink target of the document/asset deletion pass
fails in a way `tryUnlink` does not swallow, the pass returns an error. -/
lemma delDocsE_aborts {o : DelFs} {entries : List (String × ManEntry)} {refd : List String} :
    ∀ {l : List String} {p : String},
      p ∈ (l.flatMap fun rel =>
        rel :: (entryAssets entries rel).filter fun a => !(refd.contains a)) →
      tryUnlink o p ≠ Except.ok () →
      ∃ c, delDocsE o entries refd l = Except.error c := by
  intro l
  induction l with
  | nil =>
    intro p hp _
    simp at hp
  | cons rel rest ih =>
    intro p hp hfail
    have hp' : p = rel ∨
        p ∈ ((entryAssets entries rel).filter fun a => !(refd.contains a)) ∨
        p ∈ (rest.flatMap fun r =>
          r :: (entryAssets entries r).filter fun a => !(refd.contains a)) := by
      simp only [List.flatMap_cons, List.cons_append, List.mem_cons, List.mem_append] at hp
      tauto
    cases htry : tryUnlink o rel with
    | error c =>
      exact ⟨c, by unfold delDocsE; simp only [htry]⟩
    | ok u =>
      cases hass : delAssetsE o refd (entryAssets entries rel) with
      | error c =>
        exact ⟨c, by unfold delDocsE; simp only [htry, hass]⟩
      | ok v =>
        rcases hp' with rfl | hpa | hprest
        · exact absurd htry hfail
        · obtain ⟨hpin, hpf⟩ := List.mem_filter.mp hpa
          exact absurd (delAssetsE_ok_all hass p hpin (by simpa using hpf)) hfail
        · obtain ⟨c, hc⟩ := ih hprest hfail
          refine ⟨c, ?_⟩
          unfold delDocsE
          simp only [htry, hass]
          exact hc

/-- C7 (amended): for document and asset deletions, "not found" is treated as
already satisfied and any other file-system error aborts the delete phase by
propagating: (1) if every unlink yields success or ENOENT the phase succeeds,
whatever the directory-cleanup operations do (their errors are all
swallowed); (2) every propagated error is a non-ENOENT error of some unlink;
(3) conversely, if any unlink target of the phase fails with a non-ENOENT
code, the phase aborts with a propagated non-ENOENT unlink error. -/
theorem delete_failure_policy (o : DelFs) (pub : List (String × DocData))
    (entries : List (String × ManEntry)) :
    ((∀ p, o.unlinkRes p = none ∨ o.unlinkRes p = some "ENOENT") →
      deletePhaseE o pub entries = Except.ok ()) ∧
    (∀ c, deletePhaseE o pub entries = Except.error c →
      c ≠ "ENOENT" ∧ ∃ p, o.unlinkRes p = some c) ∧
    (∀ p ∈ deleteUnlinkTargets pub entries, ∀ c₀, o.unlinkRes p = some c₀ →
      c₀ ≠ "ENOENT" →
      ∃ c, deletePhaseE o pub entries = Except.error c ∧ c ≠ "ENOENT" ∧
        ∃ q, o.unlinkRes q = some c) := by
  refine ⟨?_, ?_, ?_⟩
  · intro hclean
    unfold deletePhaseE
    rw [delDocsE_ok o entries _ hclean _]
    exact cleanupListE_ok o _
  · intro c herr
    unfold deletePhaseE at herr
    cases hdocs : delDocsE o entries (assetsStillReferenced pub) (toDeleteMd pub entries) with
    | error c' =>
      simp only [hdocs] at herr
      injection herr with h
      exact h ▸ delDocsE_error hdocs
    | ok _ =>
      simp only [hdocs] at herr
      rw [cleanupListE_ok] at herr
      exact absurd herr (by simp)
  · intro p hp c₀ hres hne
    have hfail : tryUnlink o p ≠ Except.ok () := by
      unfold tryUnlink
      simp only [hres]
      rw [if_neg fun h => hne (beq_iff_eq.mp h)]
      simp
    have hp2 : p ∈ ((toDeleteMd pub entries).flatMap fun rel =>
        rel :: (entryAssets entries rel).filter fun a =>
          !((assetsStillReferenced pub).contains a)) := hp
    obtain ⟨c, hc⟩ := delDocsE_aborts hp2 hfail
    obtain ⟨hcne, q, hq⟩ := delDocsE_error hc
    refine ⟨c, ?_, hcne, q, hq⟩
    unfold deletePhaseE
    simp only [hc]

/-- Witness for C7's amended theorem: a failing unlink (EACCES on the
obsolete document "a/b.md") aborts the phase with a propagated non-ENOENT
unlink error, while with clean unlinks the phase returns ok even though
`rmdir "a"` is poised to fail. -/
theorem delete_failure_policy_witness :
    ("a/b.md" ∈ deleteUnlinkTargets [] [("a/b.md", (⟨1, []⟩ : ManEntry))] ∧
      delFsUnlinkFail.unlinkRes "a/b.md" = some "EACCES" ∧ "EACCES" ≠ "ENOENT") ∧
    (∃ c, deletePhaseE delFsUnlinkFail [] [("a/b.md", (⟨1, []⟩ : ManEntry))] =
        Except.error c ∧ c ≠ "ENOENT" ∧ ∃ q, delFsUnlinkFail.unlinkRes q = some c) ∧
    deletePhaseE delFsEacces [] [("a/b.md", (⟨1, []⟩ : ManEntry))] = Except.ok () :=
  ⟨⟨by decide, by rfl, by decide⟩,
    (delete_failure_policy delFsUnlinkFail [] [("a/b.md", ⟨1, []⟩)]).2.2 "a/b.md"
      (by decide) "EACCES" (by rfl) (by decide),
    (delete_failure_policy delFsEacces [] [("a/b.md", ⟨1, []⟩)]).1 fun _ => Or.inl rfl⟩

/-- C7 counterexample: the emptied-directory removal fails with "EACCES" — a
file-system error other than "not found" occurring during a delete operation
of the delete phase — yet the run continues and the phase succeeds, because
the cleanup `catch` swallows every error. -/
theorem delete_failure_counterexample :
    "a" ∈ dirsToCheck (toDeleteMd [] [("a/b.md", (⟨1, []⟩ : ManEntry))]) ∧
    cleanupDirE delFsEacces "a" = Except.error "EACCES" ∧
    "EACCES" ≠ "ENOENT" ∧
    deletePhaseE delFsEacces [] [("a/b.md", (⟨1, []⟩ : ManEntry))] = Except.ok () :=
  ⟨by decide, by rfl, by decide, by rfl⟩

/-- C5: the resolution order of `findAssetFile`, first match wins — (1) the
exact base filename in the source root's shared image directory, (2) the
literal relative path resolved against the document's directory, (3) the
slugified base filename in the image directory, (4) the first image-directory
file whose slugified name equals the slugified target case-insensitively;
an unresolved reference is dropped without error and the document still
enters the Snapshot without that asset. -/
theorem asset_resolution_order :
    (∀ (fs : SrcFs) (obs mdDir ref : String),
      findAssetFile fs obs mdDir ref =
        (if fs.access (nodeJoin (nodeJoin obs "image") (nodeBasename ref)) then
          some (nodeJoin (nodeJoin obs "image") (nodeBasename ref))
        else if fs.access (nodeJoin (nodeJoin obs mdDir) ref) then
          some (nodeJoin (nodeJoin obs mdDir) ref)
        else if fs.access (nodeJoin (nodeJoin obs "image")
            (slugifyStr (nodeBasename ref))) then
          some (nodeJoin (nodeJoin obs "image") (slugifyStr (nodeBasename ref)))
        else
          match fs.readdir (nodeJoin obs "image") with
          | some files =>
            (files.find? fun f => lowerStr (slugifyStr f) ==
              lowerStr (slugifyStr (nodeBasename ref))).map
              fun f => nodeJoin (nodeJoin obs "image") f
          | none => none)) ∧
    (∀ (fs : SrcFs) (obs mdDir ref : String) (refs : List String),
      findAssetFile fs obs mdDir ref = none →
      resolveRefs fs obs mdDir (ref :: refs) = resolveRefs fs obs mdDir refs) ∧
    (∀ (fs : SrcFs) (obs : String) (files : List SrcFile) (f : SrcFile),
      f ∈ files → hasPublishableFrontmatter f.content.data = true →
      (f.rel, (⟨f.mtimeMs, f.content, resolveRefs fs obs (nodeDirname f.rel)
        (extractAssetRefsStr f.content)⟩ : DocData)) ∈ getPublishableSet fs obs files) := by
  refine ⟨?_, ?_, ?_⟩
  · intro fs obs mdDir ref
    simp only [findAssetFile]
    by_cases h1 : fs.access (nodeJoin (nodeJoin obs "image") (nodeBasename ref)) = true
    · rw [List.find?_cons_of_pos _ h1, if_pos h1]
    · rw [List.find?_cons_of_neg _ h1, if_neg h1]
      by_cases h2 : fs.access (nodeJoin (nodeJoin obs mdDir) ref) = true
      · rw [List.find?_cons_of_pos _ h2, if_pos h2]
      · rw [List.find?_cons_of_neg _ h2, if_neg h2]
        by_cases h3 : fs.access (nodeJoin (nodeJoin obs "image")
            (slugifyStr (nodeBasename ref))) = true
        · rw [List.find?_cons_of_pos _ h3, if_pos h3]
        · rw [List.find?_cons_of_neg _ h3, if_neg h3]
          rfl
  · intro fs obs mdDir ref refs h
    unfold resolveRefs
    rw [List.filterMap_cons]
    simp only [h]
  · intro fs obs files f hf hpub
    unfold getPublishableSet
    exact List.mem_filterMap.mpr ⟨f, hf, by rw [if_pos hpub]⟩

/-- Witness for C5: a publishable document whose single wiki reference does
not resolve still enters the Snapshot, with no assets. -/
theorem asset_resolution_order_witness :
    (⟨"a.md", "---\n可发布: true\n---\n![[x.png]]", 5⟩ : SrcFile) ∈ srcFilesSample ∧
    hasPublishableFrontmatter ("---\n可发布: true\n---\n![[x.png]]" : String).data = true ∧
    ("a.md", (⟨5, "---\n可发布: true\n---\n![[x.png]]",
        resolveRefs fsNone "ob" (nodeDirname "a.md")
          (extractAssetRefsStr "---\n可发布: true\n---\n![[x.png]]")⟩ : DocData)) ∈
      getPublishableSet fsNone "ob" srcFilesSample :=
  ⟨by decide, by decide,
    asset_resolution_order.2.2 fsNone "ob" srcFilesSample
      ⟨"a.md", "---\n可发布: true\n---\n![[x.png]]", 5⟩ (by decide) (by decide)⟩
